/-
Verification of the Geospatial Ensemble Prediction Engine
(alibandoned-homes repository) against its natural-language specification.

Shallow embedding notes:
* Python floats are modelled by exact rationals (ℚ) where the code only
  performs field arithmetic and comparisons, and by real numbers (ℝ) where
  the code evaluates transcendental functions (haversine, exp, log).
* `src/backend/ml_pipeline/feature_cache.py` — cache key derivation.
* `src/backend/ml_pipeline/feature_validator.py` — imputation.
* `src/backend/ml_pipeline/models/ensemble.py` — weight grid search,
  ensemble prediction, explanation breakdown.
* `src/backend/ml_pipeline/models/spatial_clustering.py` — cluster expert.
* `src/backend/ml_pipeline/models/kde_predictor.py` — density expert.
* `src/backend/ml_pipeline/evaluation/spatial_cv.py` — spatial CV splits.
-/
import Mathlib

namespace AbandonedHomes

/-! ## Decimal digit machinery

Python formats the rounded coordinates with `repr`, which for the 5-decimal
rounded floats appearing in cache keys prints the shortest decimal form:
integer part, a dot, and the fractional digits with trailing zeros removed
(at least one fractional digit is always printed).  We model this decimal
printing exactly; `decDigits` is a fuel-based base-10 digit list
(least-significant first) so that all definitions reduce in the kernel. -/

def digitsAux : ℕ → ℕ → List ℕ
  | 0, _ => []
  | fuel + 1, n => if n = 0 then [] else n % 10 :: digitsAux fuel (n / 10)

/-- Base-10 digits of `n`, least significant first (empty for 0). -/
def decDigits (n : ℕ) : List ℕ := digitsAux n n

theorem digitsAux_congr : ∀ f₁ : ℕ, ∀ n : ℕ, n ≤ f₁ → ∀ f₂ : ℕ, n ≤ f₂ →
    digitsAux f₁ n = digitsAux f₂ n := by
  intro f₁
  induction f₁ with
  | zero =>
    intro n hn f₂ _
    interval_cases n
    cases f₂ <;> simp [digitsAux]
  | succ f ih =>
    intro n hn f₂ hn₂
    by_cases h0 : n = 0
    · subst h0; cases f₂ <;> simp [digitsAux]
    · obtain ⟨g, rfl⟩ : ∃ g, f₂ = g + 1 := by
        cases f₂ with
        | zero => omega
        | succ g => exact ⟨g, rfl⟩
      have hdiv : n / 10 ≤ f := by
        have : n / 10 < n := Nat.div_lt_self (Nat.pos_of_ne_zero h0) (by norm_num)
        omega
      have hdiv₂ : n / 10 ≤ g := by
        have : n / 10 < n := Nat.div_lt_self (Nat.pos_of_ne_zero h0) (by norm_num)
        omega
      simp only [digitsAux, if_neg h0]
      rw [ih (n / 10) hdiv g hdiv₂]

theorem decDigits_zero : decDigits 0 = [] := rfl

theorem decDigits_succ (n : ℕ) (h : n ≠ 0) :
    decDigits n = n % 10 :: decDigits (n / 10) := by
  have hpos : 1 ≤ n := Nat.pos_of_ne_zero h
  obtain ⟨m, rfl⟩ : ∃ m, n = m + 1 := ⟨n - 1, by omega⟩
  show digitsAux (m + 1) (m + 1) = (m + 1) % 10 :: decDigits ((m + 1) / 10)
  have hdiv : (m + 1) / 10 ≤ m := by
    have : (m + 1) / 10 < m + 1 := Nat.div_lt_self (by omega) (by norm_num)
    omega
  simp only [digitsAux, if_neg h]
  rw [digitsAux_congr m ((m + 1) / 10) hdiv ((m + 1) / 10) le_rfl]
  rfl

/-- Value of a least-significant-first digit list. -/
def ofDec : List ℕ → ℕ
  | [] => 0
  | d :: ds => d + 10 * ofDec ds

theorem ofDec_decDigits (n : ℕ) : ofDec (decDigits n) = n := by
  induction n using Nat.strong_induction_on with
  | _ n ih =>
    by_cases h : n = 0
    · subst h; rfl
    · rw [decDigits_succ n h]
      have : n / 10 < n := Nat.div_lt_self (Nat.pos_of_ne_zero h) (by norm_num)
      simp only [ofDec, ih (n / 10) this]
      omega

theorem decDigits_lt (n : ℕ) : ∀ d ∈ decDigits n, d < 10 := by
  induction n using Nat.strong_induction_on with
  | _ n ih =>
    by_cases h : n = 0
    · subst h; simp [decDigits_zero]
    · rw [decDigits_succ n h]
      intro d hd
      rcases List.mem_cons.mp hd with h1 | h2
      · subst h1; exact Nat.mod_lt _ (by norm_num)
      · exact ih (n / 10) (Nat.div_lt_self (Nat.pos_of_ne_zero h) (by norm_num)) d h2

theorem decDigits_length_le (n k : ℕ) (h : n < 10 ^ k) :
    (decDigits n).length ≤ k := by
  induction n using Nat.strong_induction_on generalizing k with
  | _ n ih =>
    by_cases h0 : n = 0
    · subst h0; simp [decDigits_zero]
    · rw [decDigits_succ n h0]
      obtain ⟨j, rfl⟩ : ∃ j, k = j + 1 := by
        cases k with
        | zero => simp at h; omega
        | succ j => exact ⟨j, rfl⟩
      have hdivlt : n / 10 < n := Nat.div_lt_self (Nat.pos_of_ne_zero h0) (by norm_num)
      have hdiv : n / 10 < 10 ^ j := by
        rw [Nat.div_lt_iff_lt_mul (by norm_num : (0:ℕ) < 10)]
        calc n < 10 ^ (j + 1) := h
        _ = 10 ^ j * 10 := by ring
      simpa using Nat.succ_le_succ (ih (n / 10) hdivlt j hdiv)

/-- The character for a decimal digit. -/
def digitChar (d : ℕ) : Char := Char.ofNat (48 + d)

/-- Decimal string of a natural number (as Python prints the integer part
of a float's `repr`). -/
def natStr (n : ℕ) : String :=
  if n = 0 then "0" else ⟨((decDigits n).map digitChar).reverse⟩

/-- The five fractional digits of `m < 10^5`, least significant first,
padded with (decimal-trailing) zeros to length 5. -/
def fracRaw (m : ℕ) : List ℕ :=
  decDigits m ++ List.replicate (5 - (decDigits m).length) 0

/-- Fractional digits with the decimal-trailing zeros stripped
(Python `repr` of a float prints no trailing zeros). -/
def fracStripped (m : ℕ) : List ℕ := (fracRaw m).dropWhile (· == 0)

/-- Fractional part string: trailing zeros stripped, but at least one digit
(`repr(40.0) = "40.0"`). -/
def fracStr (m : ℕ) : String :=
  if fracStripped m = [] then "0" else ⟨((fracStripped m).map digitChar).reverse⟩

/-- `repr` of the float value `n / 10^5` (scaled integer `n`), as Python
interpolates it into the cache-key f-string.  (For |value| < 10⁻⁴ Python
switches to scientific notation; such strings remain injective in `n`, and
no claim exercises that range, so we keep plain decimal form.) -/
def reprRounded (n : ℤ) : String :=
  (if n < 0 then "-" else "") ++ natStr (n.natAbs / 100000) ++ "." ++
    fracStr (n.natAbs % 100000)

/-- Python `round` to the nearest integer, ties to even (banker's rounding),
on exact rationals. -/
def pyRoundInt (x : ℚ) : ℤ :=
  let f : ℤ := ⌊x⌋
  let r : ℚ := x - (f : ℚ)
  if r < 1 / 2 then f
  else if 1 / 2 < r then f + 1
  else if f % 2 = 0 then f else f + 1

/-- `round(x, 5)` as the scaled integer `round(x * 10^5)`; two rounded
coordinates are equal iff their scaled integers are equal. -/
def round5scaled (x : ℚ) : ℤ := pyRoundInt (x * 100000)

/-- `FeatureCache.cache_key_for_location` (feature_cache.py): rounds the
coordinates to 5 decimals and builds
`f"features:{feature_type}:{lat_rounded}:{lon_rounded}:{radius}"`. -/
def cache_key_for_location (latitude longitude : ℚ) (feature_type : String)
    (radius : ℤ) : String :=
  "features:" ++ feature_type ++ ":" ++ reprRounded (round5scaled latitude) ++
    ":" ++ reprRounded (round5scaled longitude) ++ ":" ++ toString radius

/-! ## Ensemble predictor (`models/ensemble.py`)

Expert scores and weights are exact rationals.  `roc_auc_score` is the
Mann–Whitney pair-counting form of sklearn's ROC-AUC (equal to the
trapezoidal ROC area for binary labels); it signals `ValueError` (here:
`none`) when the validation labels contain a single class, which the grid
search catches and turns into a score of 0. -/

/-- The ensemble's weight dictionary `{'rf': _, 'spatial': _, 'kde': _}`. -/
structure EnsembleWeights where
  rf : ℚ
  spatial : ℚ
  kde : ℚ
deriving DecidableEq

/-- Default equal weighting used when no weights are supplied. -/
def defaultWeights : EnsembleWeights := ⟨0.33, 0.33, 0.34⟩

/-- Scores of the positive-label samples. -/
def posScores (y : List Bool) (s : List ℚ) : List ℚ :=
  ((y.zip s).filter (fun p => p.1)).map Prod.snd

/-- Scores of the negative-label samples. -/
def negScores (y : List Bool) (s : List ℚ) : List ℚ :=
  ((y.zip s).filter (fun p => !p.1)).map Prod.snd

/-- Mann–Whitney contribution of one (positive, negative) score pair. -/
def pairScore (p n : ℚ) : ℚ := if n < p then 1 else if p = n then 1/2 else 0

/-- Total Mann–Whitney statistic. -/
def aucSum (pos neg : List ℚ) : ℚ :=
  (pos.map (fun p => (neg.map (pairScore p)).sum)).sum

/-- sklearn `roc_auc_score`; `none` models the `ValueError` raised when
only one class is present in `y`. -/
def rocAucScore (y : List Bool) (s : List ℚ) : Option ℚ :=
  let pos := posScores y s
  let neg := negScores y s
  if pos = [] ∨ neg = [] then none
  else some (aucSum pos neg / ((pos.length : ℚ) * (neg.length : ℚ)))

/-- The grid search's `try: roc_auc_score ... except ValueError: score = 0`. -/
def scoreOrZero (y : List Bool) (s : List ℚ) : ℚ :=
  match rocAucScore y s with
  | none => 0
  | some a => a

/-- Elementwise weighted sum of three prediction vectors
(`w_rf * p_rf + w_sp * p_spatial + w_kde * p_kde`). -/
def comb3 (wrf wsp wkde : ℚ) : List ℚ → List ℚ → List ℚ → List ℚ
  | x :: xs, y :: ys, z :: zs =>
      (wrf * x + wsp * y + wkde * z) :: comb3 wrf wsp wkde xs ys zs
  | _, _, _ => []

/-- `np.arange(0, 1.1, 0.1)` as exact rationals. -/
def steps : List ℚ := [0, 0.1, 0.2, 0.3, 0.4, 0.5, 0.6, 0.7, 0.8, 0.9, 1.0]

/-- The `(w_rf, w_sp)` enumeration order of the two nested loops. -/
def combos : List (ℚ × ℚ) := steps.flatMap (fun a => steps.map (fun b => (a, b)))

/-- `np.isclose(a, 1.0)` with numpy's default tolerances
(`atol = 1e-8`, `rtol = 1e-5`). -/
def npIsCloseOne (a : ℚ) : Bool := |a - 1| ≤ 1/100000000 + 1/100000

/-- One iteration of the weight grid search: skip combinations with
negative derived `w_kde` or a weight sum that is not close to 1, otherwise
keep the combination when its AUC strictly beats the best so far. -/
def gridStep (y : List Bool) (prf psp pkde : List ℚ) (st : ℚ × EnsembleWeights)
    (c : ℚ × ℚ) : ℚ × EnsembleWeights :=
  let wrf := c.1
  let wsp := c.2
  let wkde := 1 - wrf - wsp
  if wkde < 0 ∨ ¬ npIsCloseOne (wrf + wsp + wkde) then st
  else
    let score := scoreOrZero y (comb3 wrf wsp wkde prf psp pkde)
    if st.1 < score then (score, ⟨wrf, wsp, wkde⟩) else st

/-- `EnsemblePredictor.calculate_optimal_weights`, given the pre-computed
per-expert validation predictions.  Returns `(best_score, best_weights)`;
the Python method returns the weights and reports the score. -/
def calculate_optimal_weights (w0 : EnsembleWeights) (y : List Bool)
    (prf psp pkde : List ℚ) : ℚ × EnsembleWeights :=
  combos.foldl (gridStep y prf psp pkde) (-1, w0)

/-- Per-expert prediction vector: an absent (`None`) model contributes a
zero vector of the input's length. -/
def modelPreds {α : Type} : Option (α → ℚ) → List α → List ℚ
  | some f, xs => xs.map f
  | none, xs => xs.map (fun _ => 0)

/-- `EnsemblePredictor.predict_proba`: weighted sum of the three experts'
scores, each expert optional (`None` → zero vector). -/
def ensemble_predict_proba {α β : Type} (w : EnsembleWeights)
    (rfM : Option (α → ℚ)) (spM kdeM : Option (β → ℚ))
    (X : List α) (coords : List β) : List ℚ :=
  comb3 w.rf w.spatial w.kde (modelPreds rfM X) (modelPreds spM coords)
    (modelPreds kdeM coords)

/-- One expert's entry in the explanation breakdown. -/
structure Contribution where
  prediction : ℚ
  weight : ℚ
  contribution : ℚ
deriving DecidableEq

/-- The dictionary returned by `explain_prediction_breakdown`. -/
structure Breakdown where
  final_probability : ℚ
  rf : Contribution
  spatial : Contribution
  kde : Contribution
deriving DecidableEq

/-- `EnsemblePredictor.explain_prediction_breakdown` for a single query;
it dereferences all three models, so they are given as plain functions. -/
def explain_prediction_breakdown {α β : Type} (w : EnsembleWeights)
    (rfF : α → ℚ) (spF kdeF : β → ℚ) (x : α) (c : β) : Breakdown :=
  let prf := rfF x
  let psp := spF c
  let pkde := kdeF c
  { final_probability := w.rf * prf + w.spatial * psp + w.kde * pkde
    rf := ⟨prf, w.rf, prf * w.rf⟩
    spatial := ⟨psp, w.spatial, psp * w.spatial⟩
    kde := ⟨pkde, w.kde, pkde * w.kde⟩ }

/-! ## Feature validator (`feature_validator.py`)

A raw feature value is `None`, a float `NaN`, an infinity, or a finite
number; the imputer's missing test is exactly `value is None or
(isinstance(value, float) and np.isnan(value))`.  Feature dictionaries are
association lists in insertion order, as Python dicts iterate. -/

/-- A raw feature value. -/
inductive FVal where
  | vNone : FVal
  | vNaN : FVal
  | vInf : FVal
  | vNum : ℚ → FVal
deriving DecidableEq

/-- The imputer's missing-value test. -/
def isMissing : FVal → Bool
  | .vNone => true
  | .vNaN => true
  | _ => false

/-- `True` iff the value is a finite number. -/
def isFiniteNum : FVal → Bool
  | .vNum _ => true
  | _ => false

/-- The hardcoded per-feature defaults of `impute_missing_values`. -/
def imputeDefaults : List (String × ℚ) :=
  [("population_total", 0), ("median_household_income", 50000),
   ("vacancy_rate", 10), ("ndvi_mean", 0), ("road_network_density", 0),
   ("distance_to_grocery_store", 5000)]

/-- Does `pat` match at the head of `s`? -/
def matchesAt : List Char → List Char → Bool
  | [], _ => true
  | _ :: _, [] => false
  | p :: ps, c :: cs => p == c && matchesAt ps cs

/-- Python's substring test `pat in s` on character lists. -/
def occursIn (pat : List Char) : List Char → Bool
  | [] => matchesAt pat []
  | c :: cs => matchesAt pat (c :: cs) || occursIn pat cs

/-- The generic substring-keyed fallbacks of `impute_missing_values`
(`count` → 0, `rate`/`percent` → 0.0, `distance` → 9999.0, else 0.0). -/
def genericDefault (key : String) : ℚ :=
  if occursIn "count".data key.data then 0
  else if occursIn "rate".data key.data || occursIn "percent".data key.data then 0
  else if occursIn "distance".data key.data then 9999
  else 0

/-- Default substituted for a missing value under `key`. -/
def defaultValue (key : String) : ℚ :=
  match List.lookup key imputeDefaults with
  | some q => q
  | none => genericDefault key

/-- Replacement performed for one key/value entry. -/
def imputeValue (key : String) (v : FVal) : FVal :=
  if isMissing v then .vNum (defaultValue key) else v

/-- `FeatureValidator.impute_missing_values`: copies the dictionary and
replaces each `None`/`NaN` value in place. -/
def impute_missing_values (features : List (String × FVal)) :
    List (String × FVal) :=
  features.map (fun kv => (kv.1, imputeValue kv.1 kv.2))

/-- The feature names of the validator's declared bounds table
(`self.feature_bounds`) — the schema the spec's imputer-completeness
property quantifies over. -/
def featureBoundsKeys : List String :=
  ["vacancy_rate", "poverty_rate", "unemployment_rate",
   "percent_bachelors_degree", "ndvi_mean", "ndbi_mean", "ndwi_mean",
   "median_household_income", "population_total", "distance_to_grocery_store"]

/-! ## Geometry: haversine metric and the two spatial experts

The cluster and density experts, and the spatial cross-validator, evaluate
transcendental functions, so this part of the embedding lives in ℝ. -/

noncomputable section

/-- Degrees to radians (`np.radians`). -/
def deg2rad (x : ℝ) : ℝ := x * Real.pi / 180

/-- A `[lat, lon]` coordinate pair converted to radians. -/
def toRad (p : ℝ × ℝ) : ℝ × ℝ := (deg2rad p.1, deg2rad p.2)

/-- sklearn's haversine metric on radian `(lat, lon)` pairs:
`2·asin(√(sin²(Δlat/2) + cos lat₁ · cos lat₂ · sin²(Δlon/2)))`. -/
def hav (p q : ℝ × ℝ) : ℝ :=
  2 * Real.arcsin (Real.sqrt ((Real.sin ((p.1 - q.1) / 2)) ^ 2 +
    Real.cos p.1 * Real.cos q.1 * (Real.sin ((p.2 - q.2) / 2)) ^ 2))

/-- Maximum of a list of reals (`np.max`; 0 for the empty list, which the
code never queries). -/
def listMax : List ℝ → ℝ
  | [] => 0
  | x :: xs => xs.foldl max x

/-- Minimum of a list of reals (nearest-neighbour distance). -/
def listMin : List ℝ → ℝ
  | [] => 0
  | x :: xs => xs.foldl min x

/-- Earth radius in meters, as in both spatial experts. -/
def EARTH_RADIUS_METERS : ℝ := 6371000

/-- Distance in meters from a query (degrees) to its nearest cluster
centroid (degrees): radian haversine distance times the Earth radius. -/
def nearestCentroidDistM (centroids : List (ℝ × ℝ)) (q : ℝ × ℝ) : ℝ :=
  EARTH_RADIUS_METERS * listMin (centroids.map (fun c => hav (toRad q) (toRad c)))

/-- `SpatialClusteringPredictor.predict_proba` for one query point:
zero when no clusters were trained, otherwise exponential decay
`exp(-d · (ln 2 / eps_meters))` in the nearest-centroid distance `d`. -/
def spatial_predict_proba (eps_meters : ℝ) (centroids : List (ℝ × ℝ))
    (q : ℝ × ℝ) : ℝ :=
  if centroids = [] then 0
  else Real.exp (-(nearestCentroidDistM centroids q * (Real.log 2 / eps_meters)))

/-- KDE bandwidth in radians (`bandwidth_meters / EARTH_RADIUS_METERS`). -/
def bandwidthRad (bandwidth_meters : ℝ) : ℝ := bandwidth_meters / EARTH_RADIUS_METERS

/-- Gaussian kernel value at haversine distance `d` for bandwidth `h`. -/
def gaussK (h d : ℝ) : ℝ := Real.exp (-(d ^ 2) / (2 * h ^ 2))

/-- Unnormalized kernel sum of the fitted KDE at a query point (degrees). -/
def kdeSum (h : ℝ) (train : List (ℝ × ℝ)) (q : ℝ × ℝ) : ℝ :=
  (train.map (fun t => gaussK h (hav (toRad q) (toRad t)))).sum

/-- The positive normalization constant of the fitted Gaussian KDE
(sample count times the kernel's own normalizer); it cancels inside
`predict_proba`, which only uses differences of log-densities. -/
def kdeNorm (h : ℝ) (n : ℕ) : ℝ := n * (2 * Real.pi * h ^ 2)

/-- `KernelDensity.score_samples` at one point: log of the normalized
density. -/
def score_samples (h : ℝ) (train : List (ℝ × ℝ)) (q : ℝ × ℝ) : ℝ :=
  Real.log (kdeSum h train q / kdeNorm h train.length)

/-- `self.max_log_density`: peak log-density over the training set. -/
def max_log_density (h : ℝ) (train : List (ℝ × ℝ)) : ℝ :=
  listMax (train.map (score_samples h train))

/-- `KernelDensityEstimator.predict_proba` for one query point: zero when
untrained (no fitted data), else `exp(log_density(q) − max_log_density)`. -/
def kde_predict_proba (h : ℝ) (train : List (ℝ × ℝ)) (q : ℝ × ℝ) : ℝ :=
  if train = [] then 0
  else Real.exp (score_samples h train q - max_log_density h train)

/-! ## Spatial cross-validation (`evaluation/spatial_cv.py`)

`split` first blocks the points with K-Means; the block labeling is a
parameter of the embedding (`label`), and every property proved here holds
for an arbitrary labeling, hence for the K-Means one. -/

/-- The labeled coordinates fed to `SpatialCrossValidator.split`:
`n` points, a block label per point, a `[lat, lon]` (degrees) per point. -/
structure CVInput where
  n : ℕ
  label : ℕ → ℕ
  coord : ℕ → ℝ × ℝ

/-- `test_indices`: points of the current block. -/
def testSet (d : CVInput) (fold : ℕ) : Set ℕ :=
  {i | i < d.n ∧ d.label i = fold}

/-- `potential_train_indices`: all other points. -/
def potentialTrain (d : CVInput) (fold : ℕ) : Set ℕ :=
  {i | i < d.n ∧ d.label i ≠ fold}

/-- `self.buffer_rad = buffer_distance_km / 6371.0`. -/
def bufferRad (bufferKm : ℝ) : ℝ := bufferKm / 6371

/-- The `query_radius` test: the train point has some test point within
the buffer radius (`BallTree.query_radius` is inclusive at radius `r`). -/
def tooCloseToTest (d : CVInput) (bufferKm : ℝ) (fold : ℕ) (i : ℕ) : Prop :=
  ∃ j ∈ testSet d fold,
    hav (toRad (d.coord i)) (toRad (d.coord j)) ≤ bufferRad bufferKm

/-- `final_train_indices`: candidate train points not inside the buffer. -/
def finalTrain (d : CVInput) (bufferKm : ℝ) (fold : ℕ) : Set ℕ :=
  {i | i ∈ potentialTrain d fold ∧ ¬ tooCloseToTest d bufferKm fold i}

/-- The `(train_indices, test_indices)` pair yielded for a fold.  When the
test block is empty the code yields `potential_train` directly; that equals
`finalTrain` (no point is close to an empty test set), so both branches of
the generator are this one pair. -/
def splitFold (d : CVInput) (bufferKm : ℝ) (fold : ℕ) : Set ℕ × Set ℕ :=
  (finalTrain d bufferKm fold, testSet d fold)

/-- With an empty test block, buffering removes nothing: the yielded train
set is exactly `potential_train_indices`, as in the generator's early
`yield`. -/
theorem finalTrain_of_empty_test (d : CVInput) (bufferKm : ℝ) (fold : ℕ)
    (h : testSet d fold = ∅) :
    finalTrain d bufferKm fold = potentialTrain d fold := by
  ext i
  simp only [finalTrain, Set.mem_setOf_eq, tooCloseToTest, h]
  simp

end

/-! ## Claim theorems -/

/-- C7: for every query with all three experts present, the three
per-expert contributions reported by `explain_prediction_breakdown` sum to
its `final_probability`, and that value is exactly what `predict_proba`
returns for the same query (so in particular they agree within 1e-9). -/
theorem c7_explain_contributions_sum_to_final {α β : Type}
    (w : EnsembleWeights) (rfF : α → ℚ) (spF kdeF : β → ℚ) (x : α) (c : β) :
    (explain_prediction_breakdown w rfF spF kdeF x c).rf.contribution +
      (explain_prediction_breakdown w rfF spF kdeF x c).spatial.contribution +
      (explain_prediction_breakdown w rfF spF kdeF x c).kde.contribution =
      (explain_prediction_breakdown w rfF spF kdeF x c).final_probability ∧
    ensemble_predict_proba w (some rfF) (some spF) (some kdeF) [x] [c] =
      [(explain_prediction_breakdown w rfF spF kdeF x c).final_probability] := by
  constructor
  · simp only [explain_prediction_breakdown]
    ring
  · simp only [ensemble_predict_proba, modelPreds, explain_prediction_breakdown,
      List.map_cons, List.map_nil, comb3]

/-- C2 counterexample: with no expert model available,
`EnsemblePredictor.predict_proba` does not raise; it silently returns the
all-zero vector `[0]` for a one-row query. -/
theorem c2_counterexample_untrained_returns_zeros :
    ensemble_predict_proba (α := Unit) (β := Unit) defaultWeights
      none none none [()] [()] = [0] := by
  simp only [ensemble_predict_proba, modelPreds, List.map_cons, List.map_nil, comb3]
  norm_num [defaultWeights]

/-- C2 (amended): calling `predict_proba` when no expert model is
available raises nothing and returns a silent all-zero vector (one zero
per aligned query row). -/
theorem c2_amended_untrained_silent_zeros {α β : Type} (w : EnsembleWeights)
    (X : List α) (coords : List β) :
    ensemble_predict_proba w none none none X coords =
      (X.zip coords).map (fun _ => 0) := by
  induction X generalizing coords with
  | nil => simp [ensemble_predict_proba, modelPreds, comb3]
  | cons x xs ih =>
    cases coords with
    | nil => simp [ensemble_predict_proba, modelPreds, comb3]
    | cons c cs =>
      have ihcs := ih cs
      simp only [ensemble_predict_proba, modelPreds, List.map_cons, comb3,
        List.zip_cons_cons] at ihcs ⊢
      rw [ihcs]
      norm_num

/-- Weight triples lying on the unit 2-simplex. -/
def weightsOnSimplex (w : EnsembleWeights) : Prop :=
  w.rf + w.spatial + w.kde = 1 ∧ 0 ≤ w.rf ∧ w.rf ≤ 1 ∧
    0 ≤ w.spatial ∧ w.spatial ≤ 1 ∧ 0 ≤ w.kde ∧ w.kde ≤ 1

theorem pairScore_nonneg (p n : ℚ) : 0 ≤ pairScore p n := by
  unfold pairScore
  split <;> [norm_num; skip]
  split <;> norm_num

theorem scoreOrZero_nonneg (y : List Bool) (s : List ℚ) :
    0 ≤ scoreOrZero y s := by
  unfold scoreOrZero rocAucScore
  split
  · next heq =>
    simp only at heq
    split at heq
    · exact le_refl 0
    · cases heq
  · next a heq =>
    simp only at heq
    split at heq
    · cases heq
    · have ha : a = aucSum (posScores y s) (negScores y s) /
          (((posScores y s).length : ℚ) * ((negScores y s).length : ℚ)) := by
        cases heq; rfl
      rw [ha]
      apply div_nonneg
      · apply List.sum_nonneg
        intro x hx
        obtain ⟨p, _, rfl⟩ := List.mem_map.mp hx
        apply List.sum_nonneg
        intro z hz
        obtain ⟨q, _, rfl⟩ := List.mem_map.mp hz
        exact pairScore_nonneg p q
      · positivity

theorem gridStep_preserves_simplex (y : List Bool) (prf psp pkde : List ℚ)
    (st : ℚ × EnsembleWeights) (c : ℚ × ℚ)
    (hc : 0 ≤ c.1 ∧ c.1 ≤ 1 ∧ 0 ≤ c.2 ∧ c.2 ≤ 1)
    (hst : weightsOnSimplex st.2) :
    weightsOnSimplex (gridStep y prf psp pkde st c).2 := by
  unfold gridStep
  dsimp only
  split
  · exact hst
  · next hguard =>
    push_neg at hguard
    split
    · refine ⟨by ring, hc.1, hc.2.1, hc.2.2.1, hc.2.2.2, ?_, ?_⟩
      · simpa using hguard.1
      · show 1 - c.1 - c.2 ≤ 1
        have h1 := hc.1
        have h2 := hc.2.2.1
        linarith
    · exact hst

theorem foldl_gridStep_simplex (y : List Bool) (prf psp pkde : List ℚ) :
    ∀ (l : List (ℚ × ℚ)) (st : ℚ × EnsembleWeights),
      weightsOnSimplex st.2 →
      (∀ c ∈ l, 0 ≤ c.1 ∧ c.1 ≤ 1 ∧ 0 ≤ c.2 ∧ c.2 ≤ 1) →
      weightsOnSimplex ((l.foldl (gridStep y prf psp pkde) st).2) := by
  intro l
  induction l with
  | nil => intro st hst _; exact hst
  | cons c cs ih =>
    intro st hst hmem
    rw [List.foldl_cons]
    exact ih _ (gridStep_preserves_simplex y prf psp pkde st c
        (hmem c (List.mem_cons_self c cs)) hst)
      (fun c' hc' => hmem c' (List.mem_cons_of_mem _ hc'))

theorem combos_bounds : ∀ c ∈ combos, 0 ≤ c.1 ∧ c.1 ≤ 1 ∧ 0 ≤ c.2 ∧ c.2 ≤ 1 := by
  intro c hc
  simp only [combos, List.mem_flatMap, List.mem_map] at hc
  obtain ⟨a, ha, b, hb, rfl⟩ := hc
  have hsteps : ∀ x ∈ steps, 0 ≤ x ∧ x ≤ 1 := by
    intro x hx
    fin_cases hx <;> norm_num
  exact ⟨(hsteps a ha).1, (hsteps a ha).2, (hsteps b hb).1, (hsteps b hb).2⟩

/-- C6: the weight triple returned by `calculate_optimal_weights` always
sums to 1 (hence also within ±1e-9), with each individual weight in
`[0, 1]`; combinations with negative derived `w_kde` (or a sum failing the
closeness test) never update the running best. -/
theorem c6_optimal_weights_simplex (w0 : EnsembleWeights) (y : List Bool)
    (prf psp pkde : List ℚ) :
    (calculate_optimal_weights w0 y prf psp pkde).2.rf +
        (calculate_optimal_weights w0 y prf psp pkde).2.spatial +
        (calculate_optimal_weights w0 y prf psp pkde).2.kde = 1 ∧
      |(calculate_optimal_weights w0 y prf psp pkde).2.rf +
        (calculate_optimal_weights w0 y prf psp pkde).2.spatial +
        (calculate_optimal_weights w0 y prf psp pkde).2.kde - 1| ≤
        1 / 1000000000 ∧
      0 ≤ (calculate_optimal_weights w0 y prf psp pkde).2.rf ∧
      (calculate_optimal_weights w0 y prf psp pkde).2.rf ≤ 1 ∧
      0 ≤ (calculate_optimal_weights w0 y prf psp pkde).2.spatial ∧
      (calculate_optimal_weights w0 y prf psp pkde).2.spatial ≤ 1 ∧
      0 ≤ (calculate_optimal_weights w0 y prf psp pkde).2.kde ∧
      (calculate_optimal_weights w0 y prf psp pkde).2.kde ≤ 1 := by
  have hcombos : combos = (0, 0) :: combos.tail := rfl
  have hmain : weightsOnSimplex (calculate_optimal_weights w0 y prf psp pkde).2 := by
    unfold calculate_optimal_weights
    rw [hcombos, List.foldl_cons]
    have hcond : ¬((1 - (0:ℚ) - 0 < 0) ∨
        ¬ npIsCloseOne ((0:ℚ) + 0 + (1 - 0 - 0)) = true) := by
      simp only [npIsCloseOne, decide_eq_true_eq]
      norm_num
    have hlt : (-1 : ℚ) < scoreOrZero y (comb3 0 0 (1 - 0 - 0) prf psp pkde) :=
      lt_of_lt_of_le (by norm_num) (scoreOrZero_nonneg _ _)
    have hfirst : gridStep y prf psp pkde (-1, w0) (0, 0) =
        (scoreOrZero y (comb3 0 0 (1 - 0 - 0) prf psp pkde), ⟨0, 0, 1 - 0 - 0⟩) := by
      unfold gridStep
      dsimp only
      rw [if_neg hcond, if_pos hlt]
    rw [hfirst]
    apply foldl_gridStep_simplex
    · exact ⟨by norm_num, by norm_num, by norm_num, by norm_num, by norm_num,
        by norm_num, by norm_num⟩
    · intro c hc
      exact combos_bounds c (by rw [hcombos]; exact List.mem_cons_of_mem _ hc)
  obtain ⟨hsum, h1, h2, h3, h4, h5, h6⟩ := hmain
  refine ⟨hsum, ?_, h1, h2, h3, h4, h5, h6⟩
  rw [hsum]
  norm_num

set_option maxHeartbeats 4000000 in
set_option maxRecDepth 8000 in
/-- C4 counterexample: on a validation set where the FeatureExpert's
predictions `[1, 0]` equal the labels `[true, false]` exactly and the other
two experts score within `[0, 1]`, the grid search returns weights
`(0.6, 0, 0.4)` — the first-encountered AUC-1 combination — so
`w_feature` is 0.6, not ≈ 1.0. -/
theorem c4_counterexample_w_feature_not_one :
    (calculate_optimal_weights defaultWeights [true, false] [1, 0] [0, 1] [0, 1]).2
        = ⟨0.6, 0, 0.4⟩ ∧
      ¬ ((0.6 : ℚ) ≥ 0.9) := by
  constructor
  · norm_num [calculate_optimal_weights, combos, steps, gridStep, scoreOrZero,
      rocAucScore, posScores, negScores, aucSum, pairScore, comb3, npIsCloseOne,
      List.foldl]
  · norm_num

set_option maxHeartbeats 4000000 in
set_option maxRecDepth 8000 in
/-- C4 (amended): in the scenario where the FeatureExpert reproduces the
labels exactly, the grid search achieves validation AUC = 1.0, and ties are
broken by first-encountered order of the `(w_feature, w_cluster)`
enumeration — so the selected maximizer is the earliest AUC-1 combination
`(0.6, 0, 0.4)`, even though the later combination `(1, 0, 0)` also scores
an AUC of 1. -/
theorem c4_amended_first_encountered_argmax :
    (calculate_optimal_weights defaultWeights [true, false] [1, 0] [0, 1] [0, 1])
        = (1, ⟨0.6, 0, 0.4⟩) ∧
      scoreOrZero [true, false] (comb3 1 0 0 [1, 0] [0, 1] [0, 1]) = 1 := by
  constructor
  · norm_num [calculate_optimal_weights, combos, steps, gridStep, scoreOrZero,
      rocAucScore, posScores, negScores, aucSum, pairScore, comb3, npIsCloseOne,
      List.foldl]
  · norm_num [scoreOrZero, rocAucScore, posScores, negScores, aucSum, pairScore,
      comb3]

/-- C8 counterexample: `impute_missing_values` never adds a key, so a
declared schema name (`"vacancy_rate"`, from the validator's bounds table)
that is absent from the input dictionary is still absent from the imputed
output. -/
theorem c8_counterexample_absent_schema_key :
    "vacancy_rate" ∈ featureBoundsKeys ∧
      impute_missing_values [("poverty_rate", FVal.vNone)] =
        [("poverty_rate", FVal.vNum (defaultValue "poverty_rate"))] ∧
      List.lookup "vacancy_rate"
        (impute_missing_values [("poverty_rate", FVal.vNone)]) = none := by
  refine ⟨by simp [featureBoundsKeys], rfl, ?_⟩
  simp [impute_missing_values, List.lookup]

/-- C8 (amended): `impute_missing_values` keeps exactly the input's keys in
order; every `None`/`NaN` value is replaced by the per-feature (or
substring-keyed) finite numeric default, and no output value is missing —
but keys absent from the input are not added. -/
theorem c8_amended_imputer_fills_present_keys (fs : List (String × FVal)) :
    (impute_missing_values fs).map Prod.fst = fs.map Prod.fst ∧
      (∀ p ∈ impute_missing_values fs, isMissing p.2 = false) ∧
      (∀ kv ∈ fs, isMissing kv.2 = true →
        (kv.1, FVal.vNum (defaultValue kv.1)) ∈ impute_missing_values fs) ∧
      (∀ kv ∈ fs, isMissing kv.2 = true →
        isFiniteNum (imputeValue kv.1 kv.2) = true) := by
  refine ⟨?_, ?_, ?_, ?_⟩
  · simp [impute_missing_values]
  · intro p hp
    obtain ⟨kv, _, rfl⟩ := List.mem_map.mp hp
    show isMissing (imputeValue kv.1 kv.2) = false
    unfold imputeValue
    split
    · rfl
    · next h => simpa using h
  · intro kv hkv hmiss
    apply List.mem_map.mpr
    refine ⟨kv, hkv, ?_⟩
    simp [imputeValue, hmiss]
  · intro kv _ hmiss
    simp [imputeValue, hmiss, isFiniteNum]

/-- C8 witness: for the input `{"vacancy_rate": NaN}` the imputed output
contains `vacancy_rate` mapped to its finite default, and that entry is not
missing. -/
theorem c8_witness_nan_entry_imputed :
    ("vacancy_rate", FVal.vNum (defaultValue "vacancy_rate")) ∈
        impute_missing_values [("vacancy_rate", FVal.vNaN)] ∧
      isMissing ("vacancy_rate",
        FVal.vNum (defaultValue "vacancy_rate")).2 = false := by
  have h1 := (c8_amended_imputer_fills_present_keys
      [("vacancy_rate", FVal.vNaN)]).2.2.1 ("vacancy_rate", FVal.vNaN)
      (by simp) rfl
  exact ⟨h1, (c8_amended_imputer_fills_present_keys
      [("vacancy_rate", FVal.vNaN)]).2.1 _ h1⟩

theorem hav_nonneg (p q : ℝ × ℝ) : 0 ≤ hav p q := by
  unfold hav
  have := Real.arcsin_nonneg.mpr (Real.sqrt_nonneg
    ((Real.sin ((p.1 - q.1) / 2)) ^ 2 +
      Real.cos p.1 * Real.cos q.1 * (Real.sin ((p.2 - q.2) / 2)) ^ 2))
  linarith

theorem hav_self (p : ℝ × ℝ) : hav p p = 0 := by
  simp [hav]

/-- C1: for every fold, the yielded train and test index sets are disjoint,
and (whenever the test block is non-empty) every retained train point lies
at haversine distance at least `buffer_distance` kilometers from every test
point — the buffering removes exactly the too-close candidates. -/
theorem c1_split_disjoint_and_buffered (d : CVInput) (bufferKm : ℝ) (fold : ℕ)
    (htest : (testSet d fold).Nonempty) :
    Disjoint (splitFold d bufferKm fold).1 (splitFold d bufferKm fold).2 ∧
      ∀ i ∈ (splitFold d bufferKm fold).1, ∀ j ∈ (splitFold d bufferKm fold).2,
        bufferKm ≤ 6371 * hav (toRad (d.coord i)) (toRad (d.coord j)) := by
  obtain ⟨j₀, hj₀⟩ := htest
  constructor
  · rw [Set.disjoint_left]
    rintro i ⟨⟨-, hlab⟩, -⟩ ⟨-, hlab'⟩
    exact hlab hlab'
  · rintro i ⟨hpot, hnotclose⟩ j hj
    by_contra hlt
    push_neg at hlt
    refine hnotclose ⟨j, hj, ?_⟩
    unfold bufferRad
    rw [le_div_iff₀ (by norm_num : (0:ℝ) < 6371)]
    linarith

/-- Single labeled point in block 0 at the origin. -/
def cvWitnessA : CVInput := ⟨1, fun _ => 0, fun _ => (0, 0)⟩

/-- C1 witness: the fold-0 split of a one-point dataset (non-empty test
block) is disjoint and buffered. -/
theorem c1_witness_one_point_split :
    Disjoint (splitFold cvWitnessA 1 0).1 (splitFold cvWitnessA 1 0).2 ∧
      ∀ i ∈ (splitFold cvWitnessA 1 0).1, ∀ j ∈ (splitFold cvWitnessA 1 0).2,
        (1:ℝ) ≤ 6371 * hav (toRad (cvWitnessA.coord i)) (toRad (cvWitnessA.coord j)) :=
  c1_split_disjoint_and_buffered cvWitnessA 1 0 ⟨0, Nat.zero_lt_one, rfl⟩

/-- Two coincident points in distinct blocks: buffering fold 0 removes the
only candidate train point. -/
def cvWitnessB : CVInput := ⟨2, fun i => i, fun _ => (0, 0)⟩

/-- C9 counterexample: a fold whose candidate train points are all removed
by buffering is yielded as an ordinary `(∅, test)` pair — the generator
emits it with no flag, warning, or other marker distinguishing it from a
healthy fold. -/
theorem c9_counterexample_degenerate_fold_yielded :
    splitFold cvWitnessB 1 0 = ((∅ : Set ℕ), ({0} : Set ℕ)) ∧
      ({0} : Set ℕ) ≠ (∅ : Set ℕ) := by
  have htest : testSet cvWitnessB 0 = {0} := by
    ext i
    simp only [testSet, Set.mem_setOf_eq, Set.mem_singleton_iff]
    show i < 2 ∧ i = 0 ↔ i = 0
    omega
  constructor
  · unfold splitFold
    rw [htest]
    congr 1
    ext i
    simp only [finalTrain, potentialTrain, Set.mem_setOf_eq,
      Set.mem_empty_iff_false, iff_false, not_and, not_not]
    rintro ⟨hi2, hne⟩
    refine ⟨0, ?_, ?_⟩
    · show 0 < cvWitnessB.n ∧ cvWitnessB.label 0 = 0
      exact ⟨by norm_num [cvWitnessB], rfl⟩
    · show hav (toRad (cvWitnessB.coord i)) (toRad (cvWitnessB.coord 0)) ≤ bufferRad 1
      have : cvWitnessB.coord i = cvWitnessB.coord 0 := rfl
      rw [this, hav_self]
      unfold bufferRad
      norm_num
  · intro h
    have := Set.ext_iff.mp h 0
    simp at this

/-- C9 (amended): a block with zero test points yields
`(potential_train, ∅)` — the caller sees the empty test set and can skip
the fold — and in every case the yielded test component is exactly the
block's point set; a fold emptied by buffering is yielded like any other
pair (see the counterexample), not flagged. -/
theorem c9_amended_empty_test_yield :
    (∀ (d : CVInput) (bufferKm : ℝ) (fold : ℕ), testSet d fold = ∅ →
        splitFold d bufferKm fold = (potentialTrain d fold, (∅ : Set ℕ))) ∧
      ∀ (d : CVInput) (bufferKm : ℝ) (fold : ℕ),
        (splitFold d bufferKm fold).2 = testSet d fold := by
  constructor
  · intro d b f h
    unfold splitFold
    rw [finalTrain_of_empty_test d b f h, h]
  · intro d b f
    rfl

/-- Single point labeled into block 1, so block 0's test set is empty. -/
def cvWitnessC : CVInput := ⟨1, fun _ => 1, fun _ => (0, 0)⟩

/-- C9 witness: for a dataset whose block 0 is empty, the fold-0 yield is
`(potential_train, ∅)`. -/
theorem c9_witness_empty_test_block :
    splitFold cvWitnessC 1 0 = (potentialTrain cvWitnessC 0, (∅ : Set ℕ)) ∧
      (splitFold cvWitnessC 1 0).2 = testSet cvWitnessC 0 :=
  ⟨c9_amended_empty_test_yield.1 cvWitnessC 1 0
      (by ext i; simp [testSet, cvWitnessC]),
    c9_amended_empty_test_yield.2 cvWitnessC 1 0⟩

/-- C5: with at least one trained cluster, `predict_proba` at a query whose
nearest-centroid distance is `d` meters equals `exp(−d · ln 2 / eps_meters)`;
the score is exactly 1/2 at `d = eps_meters`; the decay tends to 1 as
`d → 0` and to 0 as `d → ∞`; and with no trained clusters every score is 0. -/
theorem c5_cluster_half_life_decay (eps : ℝ) (cs : List (ℝ × ℝ)) (q : ℝ × ℝ)
    (d : ℝ) (heps : 0 < eps) :
    (cs ≠ [] → nearestCentroidDistM cs q = d →
      spatial_predict_proba eps cs q = Real.exp (-(d * (Real.log 2 / eps)))) ∧
    (cs ≠ [] → nearestCentroidDistM cs q = eps →
      spatial_predict_proba eps cs q = 1 / 2) ∧
    Filter.Tendsto (fun t : ℝ => Real.exp (-(t * (Real.log 2 / eps))))
      (nhds 0) (nhds 1) ∧
    Filter.Tendsto (fun t : ℝ => Real.exp (-(t * (Real.log 2 / eps))))
      Filter.atTop (nhds 0) ∧
    (cs = [] → spatial_predict_proba eps cs q = 0) := by
  refine ⟨?_, ?_, ?_, ?_, ?_⟩
  · intro hne hd
    unfold spatial_predict_proba
    rw [if_neg hne, hd]
  · intro hne hd
    unfold spatial_predict_proba
    rw [if_neg hne, hd]
    have : eps * (Real.log 2 / eps) = Real.log 2 := by
      field_simp
    rw [this, Real.exp_neg, Real.exp_log (by norm_num : (0:ℝ) < 2)]
    norm_num
  · have hcont : Continuous fun t : ℝ => Real.exp (-(t * (Real.log 2 / eps))) := by
      fun_prop
    have := hcont.tendsto 0
    simpa using this
  · have hc : 0 < Real.log 2 / eps := div_pos (Real.log_pos (by norm_num)) heps
    have h1 : Filter.Tendsto (fun t : ℝ => t * (Real.log 2 / eps))
        Filter.atTop Filter.atTop := Filter.tendsto_id.atTop_mul_const hc
    have h2 : Filter.Tendsto (fun t : ℝ => -(t * (Real.log 2 / eps)))
        Filter.atTop Filter.atBot := Filter.tendsto_neg_atTop_atBot.comp h1
    exact Real.tendsto_exp_atBot.comp h2
  · intro he
    unfold spatial_predict_proba
    rw [if_pos he]

/-- C5 witness: concrete instantiation at `eps = 1`, a single centroid at
the origin and a query at the origin. -/
theorem c5_witness_origin_centroid :
    (([((0:ℝ), (0:ℝ))] : List (ℝ × ℝ)) ≠ [] →
      nearestCentroidDistM [(0, 0)] (0, 0) = nearestCentroidDistM [(0, 0)] (0, 0) →
      spatial_predict_proba 1 [(0, 0)] (0, 0) =
        Real.exp (-(nearestCentroidDistM [(0, 0)] (0, 0) * (Real.log 2 / 1)))) ∧
    (([((0:ℝ), (0:ℝ))] : List (ℝ × ℝ)) ≠ [] →
      nearestCentroidDistM [(0, 0)] (0, 0) = 1 →
      spatial_predict_proba 1 [(0, 0)] (0, 0) = 1 / 2) ∧
    Filter.Tendsto (fun t : ℝ => Real.exp (-(t * (Real.log 2 / 1))))
      (nhds 0) (nhds 1) ∧
    Filter.Tendsto (fun t : ℝ => Real.exp (-(t * (Real.log 2 / 1))))
      Filter.atTop (nhds 0) ∧
    (([((0:ℝ), (0:ℝ))] : List (ℝ × ℝ)) = [] →
      spatial_predict_proba 1 [(0, 0)] (0, 0) = 0) :=
  c5_cluster_half_life_decay 1 [(0, 0)] (0, 0)
    (nearestCentroidDistM [(0, 0)] (0, 0)) one_pos

theorem foldl_max_le_of (l : List ℝ) : ∀ a c : ℝ, a ≤ c → (∀ x ∈ l, x ≤ c) →
    l.foldl max a ≤ c := by
  induction l with
  | nil => intro a c ha _; exact ha
  | cons x xs ih =>
    intro a c ha h
    rw [List.foldl_cons]
    exact ih (max a x) c (max_le ha (h x (List.mem_cons_self x xs)))
      (fun z hz => h z (List.mem_cons_of_mem _ hz))

theorem le_foldl_max_left (l : List ℝ) : ∀ a : ℝ, a ≤ l.foldl max a := by
  induction l with
  | nil => intro a; exact le_refl a
  | cons x xs ih =>
    intro a
    rw [List.foldl_cons]
    exact le_trans (le_max_left a x) (ih (max a x))

theorem le_foldl_max_of_mem (l : List ℝ) : ∀ (a x : ℝ), x ∈ l →
    x ≤ l.foldl max a := by
  induction l with
  | nil => intro a x hx; cases hx
  | cons y ys ih =>
    intro a x hx
    rw [List.foldl_cons]
    rcases List.mem_cons.mp hx with h1 | h2
    · subst h1
      exact le_trans (le_max_right a x) (le_foldl_max_left ys (max a x))
    · exact ih (max a y) x h2

theorem le_listMax_of_mem (l : List ℝ) (x : ℝ) (hx : x ∈ l) : x ≤ listMax l := by
  cases l with
  | nil => cases hx
  | cons a as =>
    show x ≤ as.foldl max a
    rcases List.mem_cons.mp hx with h1 | h2
    · subst h1; exact le_foldl_max_left as x
    · exact le_foldl_max_of_mem as a x h2

theorem listMax_le (l : List ℝ) (c : ℝ) (hne : l ≠ []) (h : ∀ x ∈ l, x ≤ c) :
    listMax l ≤ c := by
  cases l with
  | nil => exact absurd rfl hne
  | cons a as =>
    exact foldl_max_le_of as a c (h a (List.mem_cons_self a as))
      (fun z hz => h z (List.mem_cons_of_mem _ hz))

theorem kdeSum_pos (h : ℝ) (train : List (ℝ × ℝ)) (q : ℝ × ℝ)
    (hne : train ≠ []) : 0 < kdeSum h train q := by
  unfold kdeSum
  apply List.sum_pos
  · intro x hx
    obtain ⟨t, _, rfl⟩ := List.mem_map.mp hx
    exact Real.exp_pos _
  · simpa using hne

theorem score_samples_le_max (h : ℝ) (train : List (ℝ × ℝ)) (t : ℝ × ℝ)
    (ht : t ∈ train) : score_samples h train t ≤ max_log_density h train := by
  unfold max_log_density
  exact le_listMax_of_mem _ _ (List.mem_map.mpr ⟨t, ht, rfl⟩)

/-- C3 (amended): the cluster expert's score always lies in `[0, 1]`
(for positive `eps_meters`); the trained density expert's score is strictly
positive, equals exactly 1.0 at the densest training location, and is at
most 1 at every training location — but at arbitrary query coordinates it
can exceed 1 (see the counterexample), since the code normalizes by the
training-set maximum without clipping. -/
theorem c3_amended_expert_score_bounds :
    (∀ (eps : ℝ) (cs : List (ℝ × ℝ)) (q : ℝ × ℝ), 0 < eps →
      0 ≤ spatial_predict_proba eps cs q ∧ spatial_predict_proba eps cs q ≤ 1) ∧
    (∀ (h : ℝ) (train : List (ℝ × ℝ)) (q : ℝ × ℝ), train ≠ [] →
      0 < kde_predict_proba h train q) ∧
    (∀ (h : ℝ) (train : List (ℝ × ℝ)) (t : ℝ × ℝ), t ∈ train →
      kde_predict_proba h train t ≤ 1) ∧
    (∀ (h : ℝ) (train : List (ℝ × ℝ)) (t : ℝ × ℝ), h ≠ 0 → t ∈ train →
      (∀ s ∈ train, kdeSum h train s ≤ kdeSum h train t) →
      kde_predict_proba h train t = 1) := by
  refine ⟨?_, ?_, ?_, ?_⟩
  · intro eps cs q heps
    unfold spatial_predict_proba
    split
    · norm_num
    · next hne =>
      constructor
      · exact le_of_lt (Real.exp_pos _)
      · rw [Real.exp_le_one_iff]
        apply neg_nonpos_of_nonneg
        apply mul_nonneg
        · unfold nearestCentroidDistM
          apply mul_nonneg (by norm_num [EARTH_RADIUS_METERS])
          cases cs with
          | nil => exact absurd rfl hne
          | cons c cs' =>
            show (0:ℝ) ≤ List.foldl min _ _
            have hgen : ∀ (l : List ℝ) (a : ℝ), 0 ≤ a → (∀ x ∈ l, 0 ≤ x) →
                0 ≤ l.foldl min a := by
              intro l
              induction l with
              | nil => intro a ha _; exact ha
              | cons z zs ih =>
                intro a ha hz
                rw [List.foldl_cons]
                exact ih (min a z) (le_min ha (hz z (List.mem_cons_self z zs)))
                  (fun w hw => hz w (List.mem_cons_of_mem _ hw))
            refine hgen _ _ (hav_nonneg _ _) ?_
            intro x hx
            obtain ⟨t, _, rfl⟩ := List.mem_map.mp hx
            exact hav_nonneg _ _
        · exact le_of_lt (div_pos (Real.log_pos (by norm_num)) heps)
  · intro h train q hne
    unfold kde_predict_proba
    rw [if_neg hne]
    exact Real.exp_pos _
  · intro h train t ht
    have hne : train ≠ [] := List.ne_nil_of_mem ht
    unfold kde_predict_proba
    rw [if_neg hne, Real.exp_le_one_iff]
    have := score_samples_le_max h train t ht
    linarith
  · intro h train t hh ht hmax
    have hne : train ≠ [] := List.ne_nil_of_mem ht
    have hc : 0 < kdeNorm h train.length := by
      unfold kdeNorm
      have hn : 0 < (train.length : ℝ) := by
        have := List.length_pos.mpr hne
        exact_mod_cast this
      have hπ : 0 < 2 * Real.pi * h ^ 2 := by
        have := Real.pi_pos
        have hh2 : 0 < h ^ 2 := by positivity
        positivity
      positivity
    have hscore : ∀ s ∈ train, score_samples h train s ≤ score_samples h train t := by
      intro s hs
      unfold score_samples
      rw [Real.log_le_log_iff (div_pos (kdeSum_pos h train s hne) hc)
        (div_pos (kdeSum_pos h train t hne) hc), div_le_div_iff_of_pos_right hc]
      exact hmax s hs
    have hmaxeq : max_log_density h train = score_samples h train t := by
      apply le_antisymm
      · unfold max_log_density
        apply listMax_le
        · simpa using hne
        · intro x hx
          obtain ⟨s, hs, rfl⟩ := List.mem_map.mp hx
          exact hscore s hs
      · exact score_samples_le_max h train t ht
    unfold kde_predict_proba
    rw [if_neg hne, hmaxeq, sub_self, Real.exp_zero]

/-- C3 witness: instantiation of the amended bounds at `eps = 1` with an
empty centroid list, and at bandwidth 1 with a single training point, where
the density score at that (densest) training point is exactly 1. -/
theorem c3_witness_bounds_at_training_point :
    (0 ≤ spatial_predict_proba 1 [] (0, 0) ∧
      spatial_predict_proba 1 [] (0, 0) ≤ 1) ∧
    0 < kde_predict_proba 1 [(0, 0)] (0, 0) ∧
    kde_predict_proba 1 [(0, 0)] (0, 0) ≤ 1 ∧
    kde_predict_proba 1 [(0, 0)] (0, 0) = 1 :=
  ⟨c3_amended_expert_score_bounds.1 1 [] (0, 0) one_pos,
    c3_amended_expert_score_bounds.2.1 1 [(0, 0)] (0, 0) (by simp),
    c3_amended_expert_score_bounds.2.2.1 1 [(0, 0)] (0, 0) (by simp),
    c3_amended_expert_score_bounds.2.2.2 1 [(0, 0)] (0, 0) one_ne_zero (by simp)
      (fun s hs => by rw [List.mem_singleton.mp hs])⟩

/-- On the equator the haversine distance reduces to the absolute
longitude difference (in radians), for differences up to π. -/
theorem hav_equator (u v : ℝ) (h : |u - v| ≤ Real.pi) :
    hav (0, u) (0, v) = |u - v| := by
  unfold hav
  simp only [sub_self, zero_div, Real.sin_zero, ne_eq, OfNat.ofNat_ne_zero,
    not_false_eq_true, zero_pow, Real.cos_zero, one_mul, zero_add]
  have habs : |Real.sin ((u - v) / 2)| = Real.sin (|u - v| / 2) := by
    rcases le_or_lt 0 (u - v) with hle | hlt
    · rw [abs_of_nonneg hle]
      refine abs_of_nonneg (Real.sin_nonneg_of_nonneg_of_le_pi (by linarith) ?_)
      rw [abs_of_nonneg hle] at h
      have := Real.pi_pos
      linarith
    · rw [abs_of_neg hlt]
      have hsle : Real.sin ((u - v) / 2) ≤ 0 := by
        refine Real.sin_nonpos_of_nonnpos_of_neg_pi_le (by linarith) ?_
        rw [abs_of_neg hlt] at h
        have := Real.pi_pos
        linarith
      rw [abs_of_nonpos hsle, ← Real.sin_neg]
      ring_nf
  have hsq : Real.sqrt (Real.sin ((u - v) / 2) ^ 2) = Real.sin (|u - v| / 2) := by
    rw [Real.sqrt_sq_eq_abs, habs]
  have h1 : -(Real.pi / 2) ≤ |u - v| / 2 := by
    have := abs_nonneg (u - v)
    have := Real.pi_pos
    linarith
  have h2 : |u - v| / 2 ≤ Real.pi / 2 := by linarith
  rw [hsq, Real.arcsin_sin h1 h2]
  ring

/-- The midpoint of two Gaussian kernels one natural-spacing apart is
denser than either kernel center: `1 + e^(−1/2) < 2·e^(−1/8)`. -/
theorem one_add_exp_half_lt_two_exp_eighth :
    1 + Real.exp (-(1 / 2)) < 2 * Real.exp (-(1 / 8)) := by
  have hpos : 0 < Real.exp (-(1 / 8)) := Real.exp_pos _
  have h78 : (7 : ℝ) / 8 < Real.exp (-(1 / 8)) := by
    have := Real.add_one_lt_exp (x := -(1 / 8 : ℝ)) (by norm_num)
    linarith
  have h118 : (11 : ℝ) / 8 < Real.exp ((3 : ℝ) / 8) := by
    have := Real.add_one_lt_exp (x := (3 : ℝ) / 8) (by norm_num)
    linarith
  have h1 : Real.exp ((1 : ℝ) / 8) < 8 / 7 := by
    have hinv : Real.exp ((1 : ℝ) / 8) = (Real.exp (-(1 / 8)))⁻¹ := by
      rw [← Real.exp_neg]
      norm_num
    rw [hinv]
    have h0 : (0 : ℝ) < 7 / 8 := by norm_num
    calc (Real.exp (-(1 / 8)))⁻¹ < ((7 : ℝ) / 8)⁻¹ := by gcongr
    _ = 8 / 7 := by norm_num
  have h2 : Real.exp (-((3 : ℝ) / 8)) < 8 / 11 := by
    have hinv : Real.exp (-((3 : ℝ) / 8)) = (Real.exp ((3 : ℝ) / 8))⁻¹ := by
      rw [← Real.exp_neg]
    rw [hinv]
    have h0 : (0 : ℝ) < 11 / 8 := by norm_num
    calc (Real.exp ((3 : ℝ) / 8))⁻¹ < ((11 : ℝ) / 8)⁻¹ := by gcongr
    _ = 8 / 11 := by norm_num
  have key : Real.exp ((1 : ℝ) / 8) + Real.exp (-((3 : ℝ) / 8)) < 2 := by
    have : (8 : ℝ) / 7 + 8 / 11 < 2 := by norm_num
    linarith
  have e1 : Real.exp (-(1 / 8)) * Real.exp ((1 : ℝ) / 8) = 1 := by
    rw [← Real.exp_add]
    norm_num
  have e2 : Real.exp (-(1 / 8)) * Real.exp (-((3 : ℝ) / 8)) = Real.exp (-(1 / 2)) := by
    rw [← Real.exp_add]
    norm_num
  have h3 := mul_lt_mul_of_pos_left key hpos
  rw [mul_add, e1, e2] at h3
  linarith

/-- C3 counterexample: with the default 1000 m bandwidth and two training
points 1000 m apart on the equator, the trained density expert's score at
the midpoint between them exceeds 1 — the output is not bounded by 1.0 on
arbitrary query coordinates. -/
theorem c3_counterexample_kde_exceeds_one :
    1 < kde_predict_proba (bandwidthRad 1000)
      [((0 : ℝ), (0 : ℝ)), (0, 180 / (6371 * Real.pi))]
      (0, 90 / (6371 * Real.pi)) := by
  have hπ : (0 : ℝ) < Real.pi := Real.pi_pos
  have hπne : Real.pi ≠ 0 := ne_of_gt hπ
  have hb : bandwidthRad 1000 = 1 / 6371 := by
    unfold bandwidthRad EARTH_RADIUS_METERS
    norm_num
  have ht1 : toRad ((0 : ℝ), (0 : ℝ)) = (0, 0) := by
    simp [toRad, deg2rad]
  have ht2 : toRad ((0 : ℝ), 180 / (6371 * Real.pi)) = (0, 1 / 6371) := by
    unfold toRad deg2rad
    refine Prod.ext (by simp) ?_
    show 180 / (6371 * Real.pi) * Real.pi / 180 = 1 / 6371
    field_simp
    ring
  have ht3 : toRad ((0 : ℝ), 90 / (6371 * Real.pi)) = (0, 1 / 12742) := by
    unfold toRad deg2rad
    refine Prod.ext (by simp) ?_
    show 90 / (6371 * Real.pi) * Real.pi / 180 = 1 / 12742
    field_simp
    ring
  have h2pi : (2 : ℝ) ≤ Real.pi := Real.two_le_pi
  have hav1 : hav ((0 : ℝ), 1 / 12742) (0, 0) = 1 / 12742 := by
    rw [hav_equator _ _ (by rw [show (1 / 12742 - 0 : ℝ) = 1 / 12742 by norm_num,
      abs_of_nonneg (by norm_num : (0:ℝ) ≤ 1 / 12742)]; linarith)]
    rw [show (1 / 12742 - 0 : ℝ) = 1 / 12742 by norm_num,
      abs_of_nonneg (by norm_num : (0:ℝ) ≤ 1 / 12742)]
  have hav2 : hav ((0 : ℝ), 1 / 12742) (0, 1 / 6371) = 1 / 12742 := by
    rw [hav_equator _ _ (by rw [show (1 / 12742 - 1 / 6371 : ℝ) = -(1 / 12742) by norm_num,
      abs_neg, abs_of_nonneg (by norm_num : (0:ℝ) ≤ 1 / 12742)]; linarith)]
    rw [show (1 / 12742 - 1 / 6371 : ℝ) = -(1 / 12742) by norm_num,
      abs_neg, abs_of_nonneg (by norm_num : (0:ℝ) ≤ 1 / 12742)]
  have hav3 : hav ((0 : ℝ), (0 : ℝ)) (0, 1 / 6371) = 1 / 6371 := by
    rw [hav_equator _ _ (by rw [show (0 - 1 / 6371 : ℝ) = -(1 / 6371) by norm_num,
      abs_neg, abs_of_nonneg (by norm_num : (0:ℝ) ≤ 1 / 6371)]; linarith)]
    rw [show (0 - 1 / 6371 : ℝ) = -(1 / 6371) by norm_num,
      abs_neg, abs_of_nonneg (by norm_num : (0:ℝ) ≤ 1 / 6371)]
  have hav4 : hav ((0 : ℝ), 1 / 6371) (0, 0) = 1 / 6371 := by
    rw [hav_equator _ _ (by rw [show (1 / 6371 - 0 : ℝ) = 1 / 6371 by norm_num,
      abs_of_nonneg (by norm_num : (0:ℝ) ≤ 1 / 6371)]; linarith)]
    rw [show (1 / 6371 - 0 : ℝ) = 1 / 6371 by norm_num,
      abs_of_nonneg (by norm_num : (0:ℝ) ≤ 1 / 6371)]
  have hg0 : gaussK (1 / 6371) 0 = 1 := by
    unfold gaussK
    norm_num
  have hg18 : gaussK (1 / 6371) (1 / 12742) = Real.exp (-(1 / 8)) := by
    unfold gaussK
    norm_num
  have hg12 : gaussK (1 / 6371) (1 / 6371) = Real.exp (-(1 / 2)) := by
    unfold gaussK
    norm_num
  set p1 : ℝ × ℝ := ((0 : ℝ), (0 : ℝ))
  set p2 : ℝ × ℝ := ((0 : ℝ), 180 / (6371 * Real.pi))
  set q : ℝ × ℝ := ((0 : ℝ), 90 / (6371 * Real.pi))
  have hSq : kdeSum (bandwidthRad 1000) [p1, p2] q = 2 * Real.exp (-(1 / 8)) := by
    unfold kdeSum
    rw [List.map_cons, List.map_cons, List.map_nil, List.sum_cons, List.sum_cons,
      List.sum_nil, hb, ht3, ht1, ht2, hav1, hav2, hg18]
    ring
  have hS1 : kdeSum (bandwidthRad 1000) [p1, p2] p1 = 1 + Real.exp (-(1 / 2)) := by
    unfold kdeSum
    rw [List.map_cons, List.map_cons, List.map_nil, List.sum_cons, List.sum_cons,
      List.sum_nil, hb, ht1, ht2, hav_self, hav3, hg0, hg12]
    ring
  have hS2 : kdeSum (bandwidthRad 1000) [p1, p2] p2 = 1 + Real.exp (-(1 / 2)) := by
    unfold kdeSum
    rw [List.map_cons, List.map_cons, List.map_nil, List.sum_cons, List.sum_cons,
      List.sum_nil, hb, ht2, ht1, hav4, hav_self, hg0, hg12]
    ring
  have hcpos : 0 < kdeNorm (bandwidthRad 1000) ([p1, p2].length) := by
    unfold kdeNorm
    rw [hb]
    have : ((List.length [p1, p2] : ℕ) : ℝ) = 2 := by norm_num
    rw [this]
    positivity
  have hscore_eq : score_samples (bandwidthRad 1000) [p1, p2] p2 =
      score_samples (bandwidthRad 1000) [p1, p2] p1 := by
    unfold score_samples
    rw [hS1, hS2]
  have hmax : max_log_density (bandwidthRad 1000) [p1, p2] =
      score_samples (bandwidthRad 1000) [p1, p2] p1 := by
    unfold max_log_density
    rw [List.map_cons, List.map_cons, List.map_nil, hscore_eq]
    show List.foldl max _ _ = _
    simp [listMax]
  have hlt : score_samples (bandwidthRad 1000) [p1, p2] p1 <
      score_samples (bandwidthRad 1000) [p1, p2] q := by
    unfold score_samples
    apply Real.log_lt_log
    · exact div_pos (by rw [hS1]; positivity) hcpos
    · rw [div_lt_div_iff_of_pos_right hcpos, hS1, hSq]
      exact one_add_exp_half_lt_two_exp_eighth
  unfold kde_predict_proba
  rw [if_neg (by simp), hmax]
  calc (1 : ℝ) = Real.exp 0 := (Real.exp_zero).symm
  _ < _ := by
    rw [Real.exp_lt_exp]
    linarith

/-! ## Cache key quantization (C10) -/

theorem digitChar_injOn : ∀ d1 < 10, ∀ d2 < 10,
    digitChar d1 = digitChar d2 → d1 = d2 := by decide

theorem digitChar_ne_colon : ∀ d < 10, digitChar d ≠ ':' := by decide

theorem digitChar_ne_dot : ∀ d < 10, digitChar d ≠ '.' := by decide

theorem digitChar_ne_dash : ∀ d < 10, digitChar d ≠ '-' := by decide

theorem map_digitChar_inj : ∀ l1 l2 : List ℕ, (∀ d ∈ l1, d < 10) →
    (∀ d ∈ l2, d < 10) → l1.map digitChar = l2.map digitChar → l1 = l2 := by
  intro l1
  induction l1 with
  | nil =>
    intro l2 _ _ h
    cases l2 with
    | nil => rfl
    | cons b bs => simp at h
  | cons a as ih =>
    intro l2 h1 h2 h
    cases l2 with
    | nil => simp at h
    | cons b bs =>
      simp only [List.map_cons, List.cons.injEq] at h
      have ha := h1 a (List.mem_cons_self a as)
      have hb := h2 b (List.mem_cons_self b bs)
      have hab := digitChar_injOn a ha b hb h.1
      rw [hab, ih bs (fun d hd => h1 d (List.mem_cons_of_mem _ hd))
        (fun d hd => h2 d (List.mem_cons_of_mem _ hd)) h.2]

/-- Every character of `natStr n` is a decimal digit character. -/
theorem natStr_chars (n : ℕ) : ∀ c ∈ (natStr n).data, ∃ d, d < 10 ∧ c = digitChar d := by
  unfold natStr
  split
  · intro c hc
    simp only [String.data] at hc
    refine ⟨0, by norm_num, ?_⟩
    have : c = '0' := by simpa using hc
    rw [this]
    rfl
  · intro c hc
    simp only [String.data] at hc
    rw [List.mem_reverse] at hc
    obtain ⟨d, hd, rfl⟩ := List.mem_map.mp hc
    exact ⟨d, decDigits_lt n d hd, rfl⟩

theorem natStr_ne_nil (n : ℕ) : (natStr n).data ≠ [] := by
  unfold natStr
  split
  · simp [String.data]
  · next h =>
    simp only [String.data, ne_eq, List.reverse_eq_nil_iff, List.map_eq_nil_iff]
    intro hnil
    exact h (by simpa [hnil] using (ofDec_decDigits n).symm)

theorem natStr_inj (n1 n2 : ℕ) (h : natStr n1 = natStr n2) : n1 = n2 := by
  by_cases h1 : n1 = 0 <;> by_cases h2 : n2 = 0
  · omega
  · exfalso
    unfold natStr at h
    rw [if_pos h1, if_neg h2] at h
    have hd : ('0' : Char) :: [] = ((decDigits n2).map digitChar).reverse := by
      have := congrArg String.data h
      simpa [String.data] using this
    have : (decDigits n2).map digitChar = ['0'] := by
      have := congrArg List.reverse hd
      simpa using this.symm
    have hdig : decDigits n2 = [0] := by
      have h0 : ('0' : Char) = digitChar 0 := rfl
      rw [h0] at this
      have : (decDigits n2).map digitChar = [0].map digitChar := by simpa using this
      exact map_digitChar_inj _ _ (decDigits_lt n2) (by norm_num) this
    have := ofDec_decDigits n2
    rw [hdig] at this
    simp [ofDec] at this
    exact h2 this.symm
  · exfalso
    unfold natStr at h
    rw [if_neg h1, if_pos h2] at h
    have hd : ((decDigits n1).map digitChar).reverse = ('0' : Char) :: [] := by
      have := congrArg String.data h
      simpa [String.data] using this
    have : (decDigits n1).map digitChar = ['0'] := by
      have := congrArg List.reverse hd
      simpa using this
    have hdig : decDigits n1 = [0] := by
      have h0 : ('0' : Char) = digitChar 0 := rfl
      rw [h0] at this
      have : (decDigits n1).map digitChar = [0].map digitChar := by simpa using this
      exact map_digitChar_inj _ _ (decDigits_lt n1) (by norm_num) this
    have := ofDec_decDigits n1
    rw [hdig] at this
    simp [ofDec] at this
    exact h1 this.symm
  · unfold natStr at h
    rw [if_neg h1, if_neg h2] at h
    have hd := congrArg String.data h
    simp only [String.data] at hd
    have := congrArg List.reverse hd
    simp only [List.reverse_reverse] at this
    have := map_digitChar_inj _ _ (decDigits_lt n1) (decDigits_lt n2) this
    calc n1 = ofDec (decDigits n1) := (ofDec_decDigits n1).symm
    _ = ofDec (decDigits n2) := by rw [this]
    _ = n2 := ofDec_decDigits n2

theorem ofDec_append (l1 l2 : List ℕ) :
    ofDec (l1 ++ l2) = ofDec l1 + 10 ^ l1.length * ofDec l2 := by
  induction l1 with
  | nil => simp [ofDec]
  | cons d ds ih =>
    simp only [List.cons_append, ofDec, List.length_cons, List.append_eq]
    rw [ih]
    ring

theorem ofDec_replicate_zero (k : ℕ) : ofDec (List.replicate k 0) = 0 := by
  induction k with
  | zero => rfl
  | succ j ih => simp [List.replicate_succ, ofDec, ih]

theorem fracRaw_lt (m : ℕ) : ∀ d ∈ fracRaw m, d < 10 := by
  intro d hd
  unfold fracRaw at hd
  rcases List.mem_append.mp hd with h1 | h2
  · exact decDigits_lt m d h1
  · have := List.eq_of_mem_replicate h2
    omega

theorem fracRaw_length (m : ℕ) (hm : m < 100000) : (fracRaw m).length = 5 := by
  unfold fracRaw
  rw [List.length_append, List.length_replicate]
  have := decDigits_length_le m 5 (lt_of_lt_of_le hm (by norm_num))
  omega

theorem ofDec_fracRaw (m : ℕ) : ofDec (fracRaw m) = m := by
  unfold fracRaw
  rw [ofDec_append, ofDec_replicate_zero, ofDec_decDigits]
  ring

theorem dropWhile_zero_decomp : ∀ l : List ℕ,
    l = List.replicate (l.length - (l.dropWhile (· == 0)).length) 0 ++
      l.dropWhile (· == 0) := by
  intro l
  induction l with
  | nil => rfl
  | cons x xs ih =>
    by_cases hx : x = 0
    · subst hx
      rw [List.dropWhile_cons_of_pos (by simp)]
      have hlen : (xs.dropWhile (· == 0)).length ≤ xs.length :=
        (List.dropWhile_sublist _).length_le
      have hsub : (0 :: xs).length - (xs.dropWhile (· == 0)).length =
          (xs.length - (xs.dropWhile (· == 0)).length) + 1 := by
        simp only [List.length_cons]
        omega
      rw [hsub, List.replicate_succ, List.cons_append]
      exact congrArg (0 :: ·) ih
    · rw [List.dropWhile_cons_of_neg (by simpa using hx)]
      simp

theorem dropWhile_zero_head : ∀ (l : List ℕ) (c : ℕ) (cs : List ℕ),
    l.dropWhile (· == 0) = c :: cs → c ≠ 0 := by
  intro l
  induction l with
  | nil => intro c cs h; cases h
  | cons x xs ih =>
    intro c cs h
    by_cases hx : x = 0
    · subst hx
      rw [List.dropWhile_cons_of_pos (by simp)] at h
      exact ih c cs h
    · rw [List.dropWhile_cons_of_neg (by simpa using hx)] at h
      cases h
      exact hx

theorem fracStripped_inj (m1 m2 : ℕ) (h1 : m1 < 100000) (h2 : m2 < 100000)
    (h : fracStripped m1 = fracStripped m2) : m1 = m2 := by
  have d1 := dropWhile_zero_decomp (fracRaw m1)
  have d2 := dropWhile_zero_decomp (fracRaw m2)
  rw [fracRaw_length m1 h1] at d1
  rw [fracRaw_length m2 h2] at d2
  unfold fracStripped at h
  rw [h] at d1
  have : fracRaw m1 = fracRaw m2 := d1.trans d2.symm
  calc m1 = ofDec (fracRaw m1) := (ofDec_fracRaw m1).symm
  _ = ofDec (fracRaw m2) := by rw [this]
  _ = m2 := ofDec_fracRaw m2

theorem fracStripped_lt (m : ℕ) : ∀ d ∈ fracStripped m, d < 10 := by
  intro d hd
  unfold fracStripped at hd
  exact fracRaw_lt m d ((List.dropWhile_sublist _).mem hd)

theorem fracStr_chars (m : ℕ) : ∀ c ∈ (fracStr m).data,
    ∃ d, d < 10 ∧ c = digitChar d := by
  unfold fracStr
  split
  · intro c hc
    refine ⟨0, by norm_num, ?_⟩
    have : c = '0' := by simpa [String.data] using hc
    rw [this]
    rfl
  · intro c hc
    simp only [String.data] at hc
    rw [List.mem_reverse] at hc
    obtain ⟨d, hd, rfl⟩ := List.mem_map.mp hc
    exact ⟨d, fracStripped_lt m d hd, rfl⟩

theorem fracStr_inj (m1 m2 : ℕ) (h1 : m1 < 100000) (h2 : m2 < 100000)
    (h : fracStr m1 = fracStr m2) : m1 = m2 := by
  unfold fracStr at h
  by_cases e1 : fracStripped m1 = [] <;> by_cases e2 : fracStripped m2 = []
  · exact fracStripped_inj m1 m2 h1 h2 (e1.trans e2.symm)
  · exfalso
    rw [if_pos e1, if_neg e2] at h
    obtain ⟨c, cs, hcs⟩ : ∃ c cs, fracStripped m2 = c :: cs := by
      cases hx : fracStripped m2 with
      | nil => exact absurd hx e2
      | cons c cs => exact ⟨c, cs, rfl⟩
    have hd : ('0' : Char) :: [] = ((fracStripped m2).map digitChar).reverse := by
      have := congrArg String.data h
      simpa [String.data] using this
    have hmap : (fracStripped m2).map digitChar = ['0'] := by
      have := congrArg List.reverse hd
      simpa using this.symm
    have : fracStripped m2 = [0] := by
      have h0 : ('0' : Char) = digitChar 0 := rfl
      rw [h0] at hmap
      have : (fracStripped m2).map digitChar = [0].map digitChar := by
        simpa using hmap
      exact map_digitChar_inj _ _ (fracStripped_lt m2) (by norm_num) this
    exact dropWhile_zero_head (fracRaw m2) 0 [] this rfl
  · exfalso
    rw [if_neg e1, if_pos e2] at h
    obtain ⟨c, cs, hcs⟩ : ∃ c cs, fracStripped m1 = c :: cs := by
      cases hx : fracStripped m1 with
      | nil => exact absurd hx e1
      | cons c cs => exact ⟨c, cs, rfl⟩
    have hd : ((fracStripped m1).map digitChar).reverse = ('0' : Char) :: [] := by
      have := congrArg String.data h
      simpa [String.data] using this
    have hmap : (fracStripped m1).map digitChar = ['0'] := by
      have := congrArg List.reverse hd
      simpa using this
    have : fracStripped m1 = [0] := by
      have h0 : ('0' : Char) = digitChar 0 := rfl
      rw [h0] at hmap
      have : (fracStripped m1).map digitChar = [0].map digitChar := by
        simpa using hmap
      exact map_digitChar_inj _ _ (fracStripped_lt m1) (by norm_num) this
    exact dropWhile_zero_head (fracRaw m1) 0 [] this rfl
  · rw [if_neg e1, if_neg e2] at h
    have hd := congrArg String.data h
    simp only [String.data] at hd
    have := congrArg List.reverse hd
    simp only [List.reverse_reverse] at this
    have := map_digitChar_inj _ _ (fracStripped_lt m1) (fracStripped_lt m2) this
    exact fracStripped_inj m1 m2 h1 h2 this

theorem append_cons_cancel (c : Char) : ∀ (a1 a2 b1 b2 : List Char),
    c ∉ a1 → c ∉ a2 → a1 ++ c :: b1 = a2 ++ c :: b2 → a1 = a2 ∧ b1 = b2 := by
  intro a1
  induction a1 with
  | nil =>
    intro a2 b1 b2 _ hna2 h
    cases a2 with
    | nil => simpa using h
    | cons x xs =>
      exfalso
      simp only [List.nil_append, List.cons_append, List.cons.injEq] at h
      exact hna2 (h.1 ▸ List.mem_cons_self x xs)
  | cons x xs ih =>
    intro a2 b1 b2 hna1 hna2 h
    cases a2 with
    | nil =>
      exfalso
      simp only [List.cons_append, List.nil_append, List.cons.injEq] at h
      exact hna1 (h.1.symm ▸ List.mem_cons_self x xs)
    | cons y ys =>
      simp only [List.cons_append, List.cons.injEq] at h
      obtain ⟨rfl, htail⟩ := h
      have := ih ys b1 b2 (fun hm => hna1 (List.mem_cons_of_mem _ hm))
        (fun hm => hna2 (List.mem_cons_of_mem _ hm)) htail
      exact ⟨by rw [this.1], this.2⟩

theorem reprRounded_data (n : ℤ) : (reprRounded n).data =
    (if n < 0 then ['-'] else []) ++ (natStr (n.natAbs / 100000)).data ++
      '.' :: (fracStr (n.natAbs % 100000)).data := by
  unfold reprRounded
  split <;> simp [String.data_append]

theorem colon_not_mem_reprRounded (n : ℤ) : ':' ∉ (reprRounded n).data := by
  rw [reprRounded_data]
  intro hmem
  rcases List.mem_append.mp hmem with h1 | h2
  · rcases List.mem_append.mp h1 with ha | hb
    · split at ha
      · simp at ha
      · cases ha
    · obtain ⟨d, hd, hc⟩ := natStr_chars _ ':' hb
      exact digitChar_ne_colon d hd hc.symm
  · rcases List.mem_cons.mp h2 with hdot | hfrac
    · cases hdot
    · obtain ⟨d, hd, hc⟩ := fracStr_chars _ ':' hfrac
      exact digitChar_ne_colon d hd hc.symm

theorem dot_not_mem_natStr (n : ℕ) : '.' ∉ (natStr n).data := by
  intro hmem
  obtain ⟨d, hd, hc⟩ := natStr_chars n '.' hmem
  exact digitChar_ne_dot d hd hc.symm

theorem reprRounded_inj (n1 n2 : ℤ) (h : reprRounded n1 = reprRounded n2) :
    n1 = n2 := by
  have hd := congrArg String.data h
  rw [reprRounded_data, reprRounded_data] at hd
  have habs : n1.natAbs = n2.natAbs → (n1 < 0 ↔ n2 < 0) → n1 = n2 := by
    intro ha hs
    omega
  have core : ∀ a1 a2 : ℤ,
      (natStr (a1.natAbs / 100000)).data ++
          '.' :: (fracStr (a1.natAbs % 100000)).data =
        (natStr (a2.natAbs / 100000)).data ++
          '.' :: (fracStr (a2.natAbs % 100000)).data →
      a1.natAbs = a2.natAbs := by
    intro a1 a2 hh
    obtain ⟨hnat, hfrac⟩ := append_cons_cancel '.' _ _ _ _
      (dot_not_mem_natStr _) (dot_not_mem_natStr _) hh
    have hq : a1.natAbs / 100000 = a2.natAbs / 100000 :=
      natStr_inj _ _ (String.ext hnat)
    have hm : a1.natAbs % 100000 = a2.natAbs % 100000 :=
      fracStr_inj _ _ (Nat.mod_lt _ (by norm_num)) (Nat.mod_lt _ (by norm_num))
        (String.ext hfrac)
    omega
  by_cases s1 : n1 < 0 <;> by_cases s2 : n2 < 0
  · rw [if_pos s1, if_pos s2] at hd
    simp only [List.cons_append, List.nil_append, List.cons.injEq, true_and] at hd
    exact habs (core n1 n2 (by simpa using hd)) (by omega)
  · exfalso
    rw [if_pos s1, if_neg s2] at hd
    obtain ⟨c2, t2, hc2⟩ : ∃ c t, (natStr (n2.natAbs / 100000)).data = c :: t := by
      cases hx : (natStr (n2.natAbs / 100000)).data with
      | nil => exact absurd hx (natStr_ne_nil _)
      | cons c t => exact ⟨c, t, rfl⟩
    rw [hc2] at hd
    simp only [List.cons_append, List.nil_append, List.cons.injEq] at hd
    obtain ⟨d, hdlt, hdc⟩ := natStr_chars (n2.natAbs / 100000) c2
      (hc2 ▸ List.mem_cons_self c2 t2)
    exact digitChar_ne_dash d hdlt (hdc ▸ hd.1).symm
  · exfalso
    rw [if_neg s1, if_pos s2] at hd
    obtain ⟨c1, t1, hc1⟩ : ∃ c t, (natStr (n1.natAbs / 100000)).data = c :: t := by
      cases hx : (natStr (n1.natAbs / 100000)).data with
      | nil => exact absurd hx (natStr_ne_nil _)
      | cons c t => exact ⟨c, t, rfl⟩
    rw [hc1] at hd
    simp only [List.cons_append, List.nil_append, List.cons.injEq] at hd
    obtain ⟨d, hdlt, hdc⟩ := natStr_chars (n1.natAbs / 100000) c1
      (hc1 ▸ List.mem_cons_self c1 t1)
    exact digitChar_ne_dash d hdlt (hdc ▸ hd.1)
  · rw [if_neg s1, if_neg s2] at hd
    simp only [List.nil_append] at hd
    exact habs (core n1 n2 hd) (by omega)

theorem cache_key_data (lat lon : ℚ) (ft : String) (r : ℤ) :
    (cache_key_for_location lat lon ft r).data =
      "features:".data ++ (ft.data ++ (':' ::
        ((reprRounded (round5scaled lat)).data ++ (':' ::
          ((reprRounded (round5scaled lon)).data ++ (':' ::
            (toString r).data)))))) := by
  unfold cache_key_for_location
  simp [String.data_append, List.append_assoc]

/-- C10: with the source tag and radius fixed, two cache keys coincide iff
the two coordinates round to the same 5-decimal values; in particular the
two nearby claim coordinates share one key, while the third differs. -/
theorem c10_cache_key_quantization :
    (∀ (ft : String) (r : ℤ) (lat1 lon1 lat2 lon2 : ℚ),
      cache_key_for_location lat1 lon1 ft r =
          cache_key_for_location lat2 lon2 ft r ↔
        (round5scaled lat1 = round5scaled lat2 ∧
          round5scaled lon1 = round5scaled lon2)) ∧
    cache_key_for_location 40.123456 (-74.123456) "census" 500 =
      cache_key_for_location 40.123457 (-74.123459) "census" 500 ∧
    cache_key_for_location 40.12355 (-74.12355) "census" 500 ≠
      cache_key_for_location 40.123456 (-74.123456) "census" 500 := by
  have hiff : ∀ (ft : String) (r : ℤ) (lat1 lon1 lat2 lon2 : ℚ),
      cache_key_for_location lat1 lon1 ft r =
          cache_key_for_location lat2 lon2 ft r ↔
        (round5scaled lat1 = round5scaled lat2 ∧
          round5scaled lon1 = round5scaled lon2) := by
    intro ft r lat1 lon1 lat2 lon2
    constructor
    · intro h
      have hd := congrArg String.data h
      rw [cache_key_data, cache_key_data] at hd
      have hd1 := List.append_cancel_left hd
      have hd2 := List.append_cancel_left hd1
      have hd3 : (reprRounded (round5scaled lat1)).data ++ (':' ::
          ((reprRounded (round5scaled lon1)).data ++ (':' ::
            (toString r).data))) =
          (reprRounded (round5scaled lat2)).data ++ (':' ::
          ((reprRounded (round5scaled lon2)).data ++ (':' ::
            (toString r).data))) := by
        exact List.cons.inj hd2 |>.2
      obtain ⟨hlat, hrest⟩ := append_cons_cancel ':' _ _ _ _
        (colon_not_mem_reprRounded _) (colon_not_mem_reprRounded _) hd3
      obtain ⟨hlon, -⟩ := append_cons_cancel ':' _ _ _ _
        (colon_not_mem_reprRounded _) (colon_not_mem_reprRounded _) hrest
      exact ⟨reprRounded_inj _ _ (String.ext hlat),
        reprRounded_inj _ _ (String.ext hlon)⟩
    · rintro ⟨h1, h2⟩
      unfold cache_key_for_location
      rw [h1, h2]
  refine ⟨hiff, ?_, ?_⟩
  · have e1 : round5scaled (40.123456 : ℚ) = 4012346 := by
      norm_num [round5scaled, pyRoundInt]
    have e2 : round5scaled (40.123457 : ℚ) = 4012346 := by
      norm_num [round5scaled, pyRoundInt]
    have e3 : round5scaled (-74.123456 : ℚ) = -7412346 := by
      norm_num [round5scaled, pyRoundInt]
    have e4 : round5scaled (-74.123459 : ℚ) = -7412346 := by
      norm_num [round5scaled, pyRoundInt]
    exact (hiff "census" 500 _ _ _ _).mpr ⟨e1.trans e2.symm, e3.trans e4.symm⟩
  · intro h
    have e1 : round5scaled (40.12355 : ℚ) = 4012355 := by
      norm_num [round5scaled, pyRoundInt]
    have e2 : round5scaled (40.123456 : ℚ) = 4012346 := by
      norm_num [round5scaled, pyRoundInt]
    have := ((hiff "census" 500 _ _ _ _).mp h).1
    rw [e1, e2] at this
    cases this

end AbandonedHomes
